import Mathlib

/-!
# Verification of the MenuManager redline diff-and-reformat engine

Shallow embedding of `src/services/docx-redliner/menu_redliner.py` and
`src/services/docx-redliner/deprecated/menu_redliner.py` (class `MenuRedliner`):
the token-level diff engine (`_tokenize`, `_word_level_diffs`), the run
reconstruction / redline renderer (`apply_formatted_diffs`, both the active and
the deprecated variant), the paragraph eligibility checks, paragraph and
document processing, and the per-character format map builder
(`build_char_format_map`).

Texts are `List Char`.  Word-document runs are records of a text plus the
formatting attributes the Python code reads (`font.name`, `font.size`,
`font.bold`, `font.italic`, `font.underline`, `font.color.rgb`, `font.strike`,
`font.highlight_color`); tri-state attributes are `Option`-valued (`none` =
unset).  The sequence alignment that the Python code delegates to
`difflib.SequenceMatcher` is modelled by its documented contract: matching
blocks found recursively around a longest matching block, where the longest
matching block of a region is the one of maximal size that starts earliest in
`a` and, among those, earliest in `b` (the junk/autojunk heuristics of the
library are not modelled).
-/

set_option autoImplicit false

/-! ## Character classes and the tokenizer

`MenuRedliner._tokenize` is `re.findall(r"\w+|\s+|[^\w\s]", text)`: maximal
word-character runs, maximal whitespace runs, single other characters.  The
`\w` / `\s` classes are modelled over their ASCII content. -/

/-- Python regex `\s` (ASCII part): space, tab, newline, carriage return,
vertical tab, form feed. -/
def isSpaceChar (c : Char) : Bool :=
  c = ' ' || c = '\t' || c = '\n' || c = '\r' || c = '\x0b' || c = '\x0c'

/-- Python regex `\w` (ASCII part): alphanumeric or underscore. -/
def isWordChar (c : Char) : Bool :=
  c.isAlphanum || c = '_'

/-- The scanner behind `tokenize`.  The fuel argument only bounds the number of
emitted tokens; `l.length` always suffices (each token is non-empty). -/
def tokenizeGo : Nat → List Char → List (List Char)
  | _, [] => []
  | 0, _ :: _ => []
  | fuel + 1, c :: cs =>
    if isWordChar c then
      (c :: cs.takeWhile isWordChar) :: tokenizeGo fuel (cs.dropWhile isWordChar)
    else if isSpaceChar c then
      (c :: cs.takeWhile isSpaceChar) :: tokenizeGo fuel (cs.dropWhile isSpaceChar)
    else
      [c] :: tokenizeGo fuel cs

/-- `MenuRedliner._tokenize`: split a text into tokens — maximal `\w+` runs,
maximal `\s+` runs, and single characters that are neither. -/
def tokenize (l : List Char) : List (List Char) := tokenizeGo l.length l

theorem tokenizeGo_flatten :
    ∀ (fuel : Nat) (l : List Char), l.length ≤ fuel → (tokenizeGo fuel l).flatten = l := by
  intro fuel
  induction fuel with
  | zero =>
    intro l h
    cases l with
    | nil => rfl
    | cons c cs => simp at h
  | succ n ih =>
    intro l h
    cases l with
    | nil => rfl
    | cons c cs =>
      simp only [List.length_cons, Nat.succ_le_succ_iff] at h
      by_cases hw : isWordChar c
      · rw [tokenizeGo, if_pos hw, List.flatten_cons,
          ih _ (le_trans (cs.dropWhile_sublist isWordChar).length_le h)]
        simpa using congrArg (c :: ·) (List.takeWhile_append_dropWhile isWordChar cs)
      · by_cases hs : isSpaceChar c
        · rw [tokenizeGo, if_neg hw, if_pos hs, List.flatten_cons,
            ih _ (le_trans (cs.dropWhile_sublist isSpaceChar).length_le h)]
          simpa using congrArg (c :: ·) (List.takeWhile_append_dropWhile isSpaceChar cs)
        · rw [tokenizeGo, if_neg hw, if_neg hs, List.flatten_cons, ih _ h]
          rfl

/-- Tokenization preserves the text: concatenating the tokens gives the input
back (every character belongs to exactly one token, in order). -/
theorem join_tokenize (l : List Char) : (tokenize l).flatten = l :=
  tokenizeGo_flatten l.length l le_rfl

theorem tokenize_ne_nil {c : Char} {cs : List Char} : tokenize (c :: cs) ≠ [] := by
  rw [tokenize, List.length_cons, tokenizeGo]
  split <;> [skip; split] <;> simp

/-! ## Diff operations and opcodes

`diff_match_patch` operation constants (`DIFF_EQUAL = 0`, `DIFF_DELETE = -1`,
`DIFF_INSERT = 1`) are modelled by an inductive, and `difflib` opcode tags
(`'equal'`, `'replace'`, `'delete'`, `'insert'`) by another. -/

inductive Op where
  | equal
  | delete
  | insert
deriving DecidableEq, Repr

inductive OTag where
  | equal
  | replace
  | delete
  | insert
deriving DecidableEq, Repr

/-- A `difflib.SequenceMatcher.get_opcodes()` entry `(tag, i1, i2, j1, j2)`. -/
structure Opcode where
  tag : OTag
  i1 : Nat
  i2 : Nat
  j1 : Nat
  j2 : Nat
deriving DecidableEq, Repr

/-- One edit-script entry, a `(operation, text)` tuple. -/
abbrev Diff := Op × List Char

/-- `''.flatten(toks[i1:i2])` — the text of a token slice. -/
def opSlice (toks : List (List Char)) (i1 i2 : Nat) : List Char :=
  ((toks.drop i1).take (i2 - i1)).flatten

/-- The contract of `difflib.SequenceMatcher.get_opcodes()` on token lists `a`,
`b`, checked from position `(i, j)`: opcodes are contiguous and cover both
lists, `equal` opcodes have equal slices on both sides, `delete` opcodes have
an empty `b`-side, `insert` opcodes an empty `a`-side. -/
def validFrom (a b : List (List Char)) : Nat → Nat → List Opcode → Bool
  | i, j, [] => decide (i = a.length) && decide (j = b.length)
  | i, j, o :: rest =>
    decide (o.i1 = i) && decide (o.j1 = j) &&
    decide (o.i1 ≤ o.i2) && decide (o.j1 ≤ o.j2) &&
    decide (o.i2 ≤ a.length) && decide (o.j2 ≤ b.length) &&
    (match o.tag with
     | OTag.equal => decide ((a.drop o.i1).take (o.i2 - o.i1) = (b.drop o.j1).take (o.j2 - o.j1))
     | OTag.delete => decide (o.j1 = o.j2)
     | OTag.insert => decide (o.i1 = o.i2)
     | OTag.replace => true) &&
    validFrom a b o.i2 o.j2 rest

def ValidOpcodes (a b : List (List Char)) (ops : List Opcode) : Prop :=
  validFrom a b 0 0 ops = true

instance (a b : List (List Char)) (ops : List Opcode) : Decidable (ValidOpcodes a b ops) := by
  unfold ValidOpcodes; infer_instance

/-- Whether a text is entirely whitespace — Python `text.strip() == ''`. -/
def isWsOnly (t : List Char) : Bool := t.all isSpaceChar

/-! ## The opcode-to-diff mapping of `_word_level_diffs`

The active `menu_redliner.py` maps every opcode directly to Equal / Delete /
Insert diffs; the deprecated variant first re-tags opcodes whose text is
entirely whitespace on both sides as Equal. -/

/-- The opcode loop of the active `MenuRedliner._word_level_diffs`
(`menu_redliner.py` lines 342–361). -/
def rawDiffs (a b : List (List Char)) : List Opcode → List Diff
  | [] => []
  | o :: rest =>
    (match o.tag with
     | OTag.equal =>
       let t := opSlice a o.i1 o.i2
       if t = [] then [] else [(Op.equal, t)]
     | OTag.replace =>
       let dt := opSlice a o.i1 o.i2
       let it := opSlice b o.j1 o.j2
       (if dt = [] then [] else [(Op.delete, dt)]) ++
       (if it = [] then [] else [(Op.insert, it)])
     | OTag.delete =>
       let dt := opSlice a o.i1 o.i2
       if dt = [] then [] else [(Op.delete, dt)]
     | OTag.insert =>
       let it := opSlice b o.j1 o.j2
       if it = [] then [] else [(Op.insert, it)]) ++ rawDiffs a b rest

/-- The opcode loop of the deprecated `MenuRedliner._word_level_diffs`
(`deprecated/menu_redliner.py` lines 541–574): whitespace-only edits are
re-tagged as Equal (a whitespace-only replace keeps the original-side text). -/
def rawDiffsDep (a b : List (List Char)) : List Opcode → List Diff
  | [] => []
  | o :: rest =>
    (match o.tag with
     | OTag.equal =>
       let t := opSlice a o.i1 o.i2
       if t = [] then [] else [(Op.equal, t)]
     | OTag.replace =>
       let dt := opSlice a o.i1 o.i2
       let it := opSlice b o.j1 o.j2
       if isWsOnly dt && isWsOnly it then
         if dt = [] then [] else [(Op.equal, dt)]
       else
         (if dt = [] then [] else [(Op.delete, dt)]) ++
         (if it = [] then [] else [(Op.insert, it)])
     | OTag.delete =>
       let dt := opSlice a o.i1 o.i2
       if dt ≠ [] && !isWsOnly dt then [(Op.delete, dt)]
       else if dt ≠ [] then [(Op.equal, dt)]
       else []
     | OTag.insert =>
       let it := opSlice b o.j1 o.j2
       if it ≠ [] && !isWsOnly it then [(Op.insert, it)]
       else if it ≠ [] then [(Op.equal, it)]
       else []) ++ rawDiffsDep a b rest

/-- The trailing merge loop of `_word_level_diffs`: adjacent diffs with the
same operation are combined.  The accumulator is kept reversed so that the
Python `merged[-1]` update is the head. -/
def mergeStep (acc : List Diff) (d : Diff) : List Diff :=
  match acc with
  | [] => [d]
  | last :: rest =>
    if last.1 = d.1 then (d.1, last.2 ++ d.2) :: rest else d :: last :: rest

def mergeDiffs (ds : List Diff) : List Diff :=
  (ds.foldl mergeStep []).reverse

/-- `MenuRedliner._word_level_diffs` of the active file, as a function of the
matcher's opcodes. -/
def wordLevelDiffs (orig corr : List Char) (ops : List Opcode) : List Diff :=
  mergeDiffs (rawDiffs (tokenize orig) (tokenize corr) ops)

/-- `MenuRedliner._word_level_diffs` of the deprecated file, as a function of
the matcher's opcodes. -/
def wordLevelDiffsDep (orig corr : List Char) (ops : List Opcode) : List Diff :=
  mergeDiffs (rawDiffsDep (tokenize orig) (tokenize corr) ops)

/-! ## The sequence matcher

`_word_level_diffs` obtains its opcodes from `difflib.SequenceMatcher`.  The
matcher is modelled by its documented contract (junk/autojunk heuristics not
modelled): `find_longest_match` returns, of all maximal matching blocks of the
region, the one starting earliest in `a` and, among those, earliest in `b`;
`get_matching_blocks` recurses to the left and right of it, merges adjacent
blocks and appends a length-0 sentinel; `get_opcodes` turns the block list
into contiguous opcodes. -/

/-- The first `(i, j)` with `a[i:i+k] == b[j:j+k]`, `i` ascending then `j`
ascending, within `a[alo:ahi]` × `b[blo:bhi]`. -/
def findMatchOfSize (a b : List (List Char)) (alo ahi blo bhi k : Nat) :
    Option (Nat × Nat) :=
  (List.range' alo (ahi + 1 - k - alo)).findSome? fun i =>
    (List.range' blo (bhi + 1 - k - blo)).findSome? fun j =>
      if (a.drop i).take k = (b.drop j).take k then some (i, j) else none

/-- `difflib.SequenceMatcher.find_longest_match` (documented contract): a
`(besti, bestj, bestsize)` with maximal size, tie-broken earliest in `a` then
earliest in `b`; `(alo, blo, 0)` when the regions share no element. -/
def findLongestMatch (a b : List (List Char)) (alo ahi blo bhi : Nat) :
    Nat × Nat × Nat :=
  let kmax := min (ahi - alo) (bhi - blo)
  (((List.range kmax).findSome? fun d =>
      (findMatchOfSize a b alo ahi blo bhi (kmax - d)).map
        fun ij => (ij.1, ij.2, kmax - d))).getD (alo, blo, 0)

/-- The recursion of `get_matching_blocks`: find the longest match, recurse on
the regions to its left and to its right.  `fuel` only bounds the recursion
depth; `a.length + b.length + 1` is always enough. -/
def matchBlocksRec (a b : List (List Char)) :
    Nat → Nat → Nat → Nat → Nat → List (Nat × Nat × Nat)
  | 0, _, _, _, _ => []
  | fuel + 1, alo, ahi, blo, bhi =>
    let m := findLongestMatch a b alo ahi blo bhi
    if m.2.2 = 0 then []
    else
      matchBlocksRec a b fuel alo m.1 blo m.2.1 ++
        m :: matchBlocksRec a b fuel (m.1 + m.2.2) ahi (m.2.1 + m.2.2) bhi

/-- The adjacent-block merge loop of `get_matching_blocks`. -/
def nonAdjGo : Nat → Nat → Nat → List (Nat × Nat × Nat) → List (Nat × Nat × Nat)
  | i1, j1, k1, [] => if k1 ≠ 0 then [(i1, j1, k1)] else []
  | i1, j1, k1, (i2, j2, k2) :: rest =>
    if i1 + k1 = i2 ∧ j1 + k1 = j2 then
      nonAdjGo i1 j1 (k1 + k2) rest
    else
      (if k1 ≠ 0 then [(i1, j1, k1)] else []) ++ nonAdjGo i2 j2 k2 rest

/-- `difflib.SequenceMatcher.get_matching_blocks`. -/
def matchingBlocks (a b : List (List Char)) : List (Nat × Nat × Nat) :=
  nonAdjGo 0 0 0 (matchBlocksRec a b (a.length + b.length + 1) 0 a.length 0 b.length) ++
    [(a.length, b.length, 0)]

/-- The opcode-emitting loop of `difflib.SequenceMatcher.get_opcodes`. -/
def opcodesFromBlocks : Nat → Nat → List (Nat × Nat × Nat) → List Opcode
  | _, _, [] => []
  | i, j, (ai, bj, k) :: rest =>
    (if i < ai ∧ j < bj then [⟨OTag.replace, i, ai, j, bj⟩]
     else if i < ai then [⟨OTag.delete, i, ai, j, bj⟩]
     else if j < bj then [⟨OTag.insert, i, ai, j, bj⟩]
     else []) ++
    (if k ≠ 0 then [⟨OTag.equal, ai, ai + k, bj, bj + k⟩] else []) ++
    opcodesFromBlocks (ai + k) (bj + k) rest

/-- `difflib.SequenceMatcher(a=…, b=…).get_opcodes()`. -/
def getOpcodes (a b : List (List Char)) : List Opcode :=
  opcodesFromBlocks 0 0 (matchingBlocks a b)

/-- `MenuRedliner._word_level_diffs(original_text, corrected_text)` of the
active file, end to end. -/
def wordLevelDiffsFull (orig corr : List Char) : List Diff :=
  wordLevelDiffs orig corr (getOpcodes (tokenize orig) (tokenize corr))

/-- `MenuRedliner._word_level_diffs(original_text, corrected_text)` of the
deprecated file, end to end. -/
def wordLevelDiffsFullDep (orig corr : List Char) : List Diff :=
  wordLevelDiffsDep orig corr (getOpcodes (tokenize orig) (tokenize corr))

/-! ## Selected concatenations of an edit script -/

/-- Keep Equal and Delete spans — the original-side text of a script. -/
def keepsOrig : Op → Bool
  | Op.insert => false
  | _ => true

/-- Keep Equal and Insert spans — the corrected-side text of a script. -/
def keepsCorr : Op → Bool
  | Op.delete => false
  | _ => true

/-- Concatenation of the texts of the spans whose operation satisfies `P`. -/
def selJoin (P : Op → Bool) (ds : List Diff) : List Char :=
  (ds.filterMap fun d => if P d.1 then some d.2 else none).flatten

theorem selJoin_append (P : Op → Bool) (xs ys : List Diff) :
    selJoin P (xs ++ ys) = selJoin P xs ++ selJoin P ys := by
  simp [selJoin, List.filterMap_append]

/-! ## Claim C1 — concatenation invariant of the diff engine -/

theorem flatten_drop_split (toks : List (List Char)) (i k : Nat)
    (h1 : i ≤ k) (h2 : k ≤ toks.length) :
    (toks.drop i).flatten = opSlice toks i k ++ (toks.drop k).flatten := by
  have hsplit : toks.drop i = (toks.drop i).take (k - i) ++ toks.drop k := by
    conv_lhs => rw [← List.take_append_drop (k - i) (toks.drop i)]
    rw [List.drop_drop]
    congr 2
    omega
  conv_lhs => rw [hsplit]
  rw [List.flatten_append]
  rfl

theorem selJoin_nil (P : Op → Bool) : selJoin P [] = [] := rfl

theorem selJoin_singleton (P : Op → Bool) (d : Diff) :
    selJoin P [d] = if P d.1 then d.2 else [] := by
  by_cases hp : P d.1 <;> simp [selJoin, hp]

theorem selJoin_mergeStep (P : Op → Bool) (acc : List Diff) (d : Diff) :
    selJoin P (mergeStep acc d).reverse =
      selJoin P acc.reverse ++ selJoin P [d] := by
  cases acc with
  | nil => simp [mergeStep, selJoin_nil]
  | cons last rest =>
    by_cases h : last.1 = d.1
    · simp only [mergeStep, if_pos h, List.reverse_cons, selJoin_append, List.append_assoc]
      congr 1
      rw [selJoin_singleton, selJoin_singleton, selJoin_singleton, h]
      by_cases hp : P d.1 <;> simp [hp]
    · simp only [mergeStep, if_neg h, List.reverse_cons, selJoin_append, List.append_assoc]

theorem selJoin_foldl_merge (P : Op → Bool) (ds : List Diff) :
    ∀ acc, selJoin P (ds.foldl mergeStep acc).reverse =
      selJoin P acc.reverse ++ selJoin P ds := by
  induction ds with
  | nil => intro acc; simp [selJoin_nil]
  | cons d rest ih =>
    intro acc
    rw [List.foldl_cons, ih, selJoin_mergeStep]
    have : selJoin P (d :: rest) = selJoin P [d] ++ selJoin P rest := selJoin_append P [d] rest
    rw [this, List.append_assoc]

/-- The merge loop of `_word_level_diffs` does not change the Equal+Delete or
Equal+Insert concatenations of the script. -/
theorem selJoin_mergeDiffs (P : Op → Bool) (ds : List Diff) :
    selJoin P (mergeDiffs ds) = selJoin P ds := by
  have := selJoin_foldl_merge P ds []
  simpa [mergeDiffs, selJoin_nil] using this

theorem rawDiffs_joins (a b : List (List Char)) :
    ∀ (ops : List Opcode) (i j : Nat), validFrom a b i j ops = true →
      selJoin keepsOrig (rawDiffs a b ops) = (a.drop i).flatten ∧
      selJoin keepsCorr (rawDiffs a b ops) = (b.drop j).flatten := by
  intro ops
  induction ops with
  | nil =>
    intro i j h
    rw [validFrom] at h
    simp only [Bool.and_eq_true, decide_eq_true_eq] at h
    simp [rawDiffs, selJoin_nil, h.1, h.2]
  | cons o rest ih =>
    intro i j h
    obtain ⟨tg, oi1, oi2, oj1, oj2⟩ := o
    rw [validFrom] at h
    simp only [Bool.and_eq_true, decide_eq_true_eq] at h
    obtain ⟨⟨⟨⟨⟨⟨⟨hi1, hj1⟩, hii⟩, hjj⟩, hi2⟩, hj2⟩, htag⟩, hrest⟩ := h
    obtain ⟨ihO, ihC⟩ := ih oi2 oj2 hrest
    dsimp only at hi1 hj1 hii hjj hi2 hj2 htag
    subst hi1 hj1
    rw [rawDiffs, selJoin_append, selJoin_append, ihO, ihC,
        flatten_drop_split a oi1 oi2 hii hi2,
        flatten_drop_split b oj1 oj2 hjj hj2]
    cases tg
    · -- equal
      simp only [decide_eq_true_eq] at htag
      have hslice : opSlice a oi1 oi2 = opSlice b oj1 oj2 := congrArg List.flatten htag
      constructor
      · by_cases ht : opSlice a oi1 oi2 = [] <;>
          simp [ht, selJoin_nil, selJoin_singleton, keepsOrig]
      · by_cases ht : opSlice a oi1 oi2 = [] <;>
          simp_all [selJoin_nil, selJoin_singleton, keepsCorr]
    · -- replace
      constructor <;>
        (by_cases hd : opSlice a oi1 oi2 = [] <;>
          by_cases hins : opSlice b oj1 oj2 = [] <;>
            simp [hd, hins, selJoin, keepsOrig, keepsCorr])
    · -- delete: b-side slice empty
      simp only [decide_eq_true_eq] at htag
      have hb : opSlice b oj1 oj2 = [] := by
        simp [opSlice, htag]
      constructor
      · by_cases hd : opSlice a oi1 oi2 = [] <;>
          simp [hd, selJoin_nil, selJoin_singleton, keepsOrig]
      · by_cases hd : opSlice a oi1 oi2 = [] <;>
          simp [hd, hb, selJoin_nil, selJoin_singleton, keepsCorr]
    · -- insert: a-side slice empty
      simp only [decide_eq_true_eq] at htag
      have ha : opSlice a oi1 oi2 = [] := by
        simp [opSlice, htag]
      constructor
      · by_cases hins : opSlice b oj1 oj2 = [] <;>
          simp [ha, hins, selJoin_nil, selJoin_singleton, keepsOrig]
      · by_cases hins : opSlice b oj1 oj2 = [] <;>
          simp [ha, hins, selJoin_nil, selJoin_singleton, keepsCorr]

/-- **C1.** For every pair of input strings and every opcode list satisfying the
`difflib.SequenceMatcher.get_opcodes` contract on their token lists, the edit
script produced by `_word_level_diffs` (active `menu_redliner.py`)
reconstructs the original text from its Equal+Delete spans and the corrected
text from its Equal+Insert spans. -/
theorem c1_concat_invariant (orig corr : List Char) (ops : List Opcode)
    (h : ValidOpcodes (tokenize orig) (tokenize corr) ops) :
    selJoin keepsOrig (wordLevelDiffs orig corr ops) = orig ∧
    selJoin keepsCorr (wordLevelDiffs orig corr ops) = corr := by
  have := rawDiffs_joins (tokenize orig) (tokenize corr) ops 0 0 h
  rw [List.drop_zero, List.drop_zero, join_tokenize, join_tokenize] at this
  rw [wordLevelDiffs, selJoin_mergeDiffs, selJoin_mergeDiffs]
  exact this

/-- Witness for C1 at `"a b"` → `"a c"` with the opcodes the matcher produces
for their token lists. -/
theorem c1_concat_invariant_witness :
    selJoin keepsOrig (wordLevelDiffs "a b".toList "a c".toList
        [⟨OTag.equal, 0, 2, 0, 2⟩, ⟨OTag.replace, 2, 3, 2, 3⟩]) = "a b".toList ∧
    selJoin keepsCorr (wordLevelDiffs "a b".toList "a c".toList
        [⟨OTag.equal, 0, 2, 0, 2⟩, ⟨OTag.replace, 2, 3, 2, 3⟩]) = "a c".toList :=
  c1_concat_invariant _ _ _ (by decide)

/-! ## Claim C4 — whitespace suppression -/

theorem mergeDiffs_all_equal (ds : List Diff)
    (h : ∀ d ∈ ds, d.1 = Op.equal) : ∀ d ∈ mergeDiffs ds, d.1 = Op.equal := by
  have main : ∀ (ds' : List Diff), (∀ d ∈ ds', d.1 = Op.equal) →
      ∀ (acc : List Diff), (∀ d ∈ acc, d.1 = Op.equal) →
        ∀ d ∈ ds'.foldl mergeStep acc, d.1 = Op.equal := by
    intro ds'
    induction ds' with
    | nil => intro _ acc hacc; simpa using hacc
    | cons x rest ih =>
      intro hds acc hacc
      rw [List.foldl_cons]
      refine ih (fun d hd => hds d (List.mem_cons_of_mem x hd)) _ ?_
      have hx : x.1 = Op.equal := hds x (List.mem_cons_self x rest)
      intro d hd
      cases acc with
      | nil =>
        simp only [mergeStep, List.mem_singleton] at hd
        rw [hd]; exact hx
      | cons last tl =>
        by_cases he : last.1 = x.1
        · simp only [mergeStep, if_pos he, List.mem_cons] at hd
          rcases hd with h | h
          · rw [h]; exact hx
          · exact hacc _ (List.mem_cons_of_mem _ h)
        · simp only [mergeStep, if_neg he, List.mem_cons] at hd
          rcases hd with h | h | h
          · rw [h]; exact hx
          · rw [h]; exact hacc _ (List.mem_cons_self _ _)
          · exact hacc _ (List.mem_cons_of_mem _ h)
  intro d hd
  rw [mergeDiffs] at hd
  exact main ds h [] (by simp) d (List.mem_reverse.mp hd)

/-- **C4 (amended).** In the deprecated `_word_level_diffs`, every delete,
insert or replace opcode whose affected text is entirely whitespace on both
sides is re-tagged as Equal (keeping the original-side text for a replace), so
if all non-equal opcodes are whitespace-only on both sides the resulting edit
script contains no Delete and no Insert span. -/
theorem c4_whitespace_retag (orig corr : List Char) (ops : List Opcode)
    (hws : ∀ o ∈ ops, o.tag ≠ OTag.equal →
      isWsOnly (opSlice (tokenize orig) o.i1 o.i2) = true ∧
      isWsOnly (opSlice (tokenize corr) o.j1 o.j2) = true) :
    ∀ d ∈ wordLevelDiffsDep orig corr ops, d.1 = Op.equal := by
  rw [wordLevelDiffsDep]
  refine mergeDiffs_all_equal _ ?_
  induction ops with
  | nil => simp [rawDiffsDep]
  | cons o rest ih =>
    intro d hd
    rw [rawDiffsDep, List.mem_append] at hd
    rcases hd with hd | hd
    · obtain ⟨tg, oi1, oi2, oj1, oj2⟩ := o
      cases tg
      · -- equal opcode: only Equal diffs are emitted
        dsimp only at hd
        split at hd <;> simp_all
      · -- replace opcode: whitespace-only on both sides, re-tagged
        obtain ⟨hwa, hwb⟩ := hws _ (List.mem_cons_self _ _) (by simp)
        dsimp only at hd hwa hwb
        rw [hwa, hwb] at hd
        simp only [Bool.and_self, if_true] at hd
        split at hd <;> simp_all
      · -- delete opcode: whitespace-only, re-tagged
        obtain ⟨hwa, _⟩ := hws _ (List.mem_cons_self _ _) (by simp)
        dsimp only at hd hwa
        rw [hwa] at hd
        simp only [Bool.not_true, Bool.and_false, if_false] at hd
        split at hd <;> simp_all
      · -- insert opcode: whitespace-only, re-tagged
        obtain ⟨_, hwb⟩ := hws _ (List.mem_cons_self _ _) (by simp)
        dsimp only at hd hwb
        rw [hwb] at hd
        simp only [Bool.not_true, Bool.and_false, if_false] at hd
        split at hd <;> simp_all
    · exact ih (fun o' ho' => hws o' (List.mem_cons_of_mem _ ho')) d hd

/-- Witness for the amended C4: on `"foo  bar"` → `"foo bar"` (the spec's own
example) the deprecated engine, with the opcodes the matcher produces, yields
an edit script with no Delete and no Insert span. -/
theorem c4_whitespace_retag_witness :
    (wordLevelDiffsFullDep "foo  bar".toList "foo bar".toList).all
      (fun d => decide (d.1 = Op.equal)) = true := by
  have h := c4_whitespace_retag "foo  bar".toList "foo bar".toList
      (getOpcodes (tokenize "foo  bar".toList) (tokenize "foo bar".toList)) (by decide)
  rw [List.all_eq_true]
  intro d hd
  simpa using h d hd

/-- **C4 counterexample.** The active `_word_level_diffs` performs no
whitespace suppression: on the spec's own example `"foo  bar"` → `"foo bar"`
its edit script contains a Delete and an Insert span. -/
theorem c4_counterexample :
    wordLevelDiffsFull "foo  bar".toList "foo bar".toList =
      [(Op.equal, "foo".toList), (Op.delete, "  ".toList),
       (Op.insert, " ".toList), (Op.equal, "bar".toList)] ∧
    ((wordLevelDiffsFull "foo  bar".toList "foo bar".toList).any
      fun d => decide (d.1 = Op.delete)) = true := by
  decide

/-! ## Runs, formats, and the per-character format map

A `Run` models a `python-docx` run as the redliner reads and writes it.
Tri-state font attributes are `Option`-valued.  `font.size` and the colors are
`Nat`s (EMU length / RGB value / `WD_COLOR_INDEX` member); `python-docx`
lengths, `RGBColor`s and enum members are `int` subclasses, so Python
truthiness on them is "present and non-zero". -/

/-- `WD_COLOR_INDEX.YELLOW`. -/
def YELLOW : Nat := 7

/-- `RGBColor(0xFF, 0x00, 0x00)` — the deletion color. -/
def RED : Nat := 0xFF0000

structure Run where
  text : List Char
  name : Option String := none
  size : Option Nat := none
  bold : Option Bool := none
  italic : Option Bool := none
  underline : Option Bool := none
  color : Option Nat := none
  strike : Option Bool := none
  highlight : Option Nat := none
deriving DecidableEq, Repr

/-- Python truthiness of an optional string attribute. -/
def optStrTruthy (o : Option String) : Bool := decide (o.getD "" ≠ "")

/-- Python truthiness of an optional int-like attribute. -/
def optNatTruthy (o : Option Nat) : Bool := decide (o.getD 0 ≠ 0)

/-- A format-map entry of `build_char_format_map` (deprecated file lines
309–326): the font attributes snapshotted per character. -/
structure Fmt where
  name : Option String
  size : Option Nat
  bold : Option Bool
  italic : Option Bool
  underline : Option Bool
  color : Option Nat
deriving DecidableEq, Repr

/-- The `{}` default format used when the paragraph has no characters. -/
def emptyFmt : Fmt := ⟨none, none, none, none, none, none⟩

/-- The snapshot taken of one run (`'color': run.font.color.rgb if
run.font.color.rgb else None`). -/
def runFmt (r : Run) : Fmt :=
  ⟨r.name, r.size, r.bold, r.italic, r.underline,
   if optNatTruthy r.color then r.color else none⟩

/-- `MenuRedliner.build_char_format_map`: one snapshot per character offset. -/
def buildCharFormatMap (runs : List Run) : List Fmt :=
  (runs.map fun r => List.replicate r.text.length (runFmt r)).flatten

/-- The plain text of a paragraph (`para.text` — concatenation of run texts). -/
def paraText (runs : List Run) : List Char := (runs.map Run.text).flatten

/-! ## The active renderer (`apply_formatted_diffs`, `menu_redliner.py` 205–287) -/

def findRunAux : List Run → Nat → Nat → Option Run
  | [], _, _ => none
  | r :: rest, cum, target =>
    if target < cum + r.text.length then some r
    else findRunAux rest (cum + r.text.length) target

/-- `MenuRedliner.find_run_at_index` of the active file: the run containing the
character offset, falling back to the last run. -/
def findRunAtIndex (runs : List Run) (target : Nat) : Option Run :=
  match findRunAux runs 0 target with
  | some r => some r
  | none => runs.getLast?

/-- The zero-run branch of `apply_formatted_diffs` (identical in both files):
one run per non-empty diff, with only the operation style applied. -/
def renderNoRuns (diffs : List Diff) : List Run :=
  diffs.filterMap fun d =>
    if d.2 = [] then none
    else some (match d.1 with
      | Op.delete => { text := d.2, strike := some true, color := some RED }
      | Op.insert => { text := d.2, highlight := some YELLOW }
      | Op.equal => { text := d.2 })

/-- Step 6 of the active `apply_formatted_diffs`: copy the style-run's font
attributes onto the new run (color only for non-deletions). -/
def styleFromRun (sr : Option Run) (op : Op) (t : List Char) : Run :=
  match sr with
  | none => { text := t }
  | some s =>
    { text := t
      name := if optStrTruthy s.name then s.name else none
      size := if optNatTruthy s.size then s.size else none
      bold := s.bold
      italic := s.italic
      underline := s.underline
      color := if optNatTruthy s.color && decide (op ≠ Op.delete) then s.color else none }

/-- Step 7 of `apply_formatted_diffs`: the operation-specific formatting. -/
def applyDiffFormatting (op : Op) (r : Run) : Run :=
  match op with
  | Op.delete => { r with strike := some true, color := some RED }
  | Op.insert => { r with highlight := some YELLOW }
  | Op.equal => r

/-- The diff loop of the active `apply_formatted_diffs`: one run per non-empty
diff, styled from the run at the current original-text cursor; the cursor
advances on Equal and Delete only. -/
def renderCurGo (runs : List Run) : Nat → List Diff → List Run
  | _, [] => []
  | c, d :: rest =>
    if d.2 = [] then renderCurGo runs c rest
    else
      applyDiffFormatting d.1 (styleFromRun (findRunAtIndex runs c) d.1 d.2) ::
        renderCurGo runs (if d.1 = Op.insert then c else c + d.2.length) rest

/-- `MenuRedliner.apply_formatted_diffs` of the active file, as the new run
list of the paragraph. -/
def applyFormattedDiffs (runs : List Run) (diffs : List Diff) : List Run :=
  if runs = [] then renderNoRuns diffs else renderCurGo runs 0 diffs

/-! ## The deprecated renderer (`apply_formatted_diffs`, deprecated file 328–441) -/

/-- `char_format_map[char_idx] if char_idx < len(...) else default_format`. -/
def fmtAt (map : List Fmt) (dflt : Fmt) (i : Nat) : Fmt :=
  (map.get? i).getD dflt

/-- An Equal-branch output run: all captured attributes of the group's first
character are copied (Python truthiness on name/size/color). -/
def mkEqualRun (t : List Char) (f : Fmt) : Run :=
  { text := t
    name := if optStrTruthy f.name then f.name else none
    size := if optNatTruthy f.size then f.size else none
    bold := f.bold
    italic := f.italic
    underline := f.underline
    color := if optNatTruthy f.color then f.color else none }

/-- The Equal-branch walk: group consecutive characters whose format has the
same `bold` as the group's first character, one output run per group.  The fuel
argument only bounds the number of groups; the list length always suffices. -/
def groupPairsGo : Nat → List (Char × Fmt) → List Run
  | _, [] => []
  | 0, _ :: _ => []
  | fuel + 1, (ch, f) :: rest =>
    mkEqualRun (ch :: (rest.takeWhile fun p => decide (p.2.bold = f.bold)).map Prod.fst) f ::
      groupPairsGo fuel (rest.dropWhile fun p => decide (p.2.bold = f.bold))

def groupPairs (ps : List (Char × Fmt)) : List Run := groupPairsGo ps.length ps

/-- The Equal branch of the deprecated `apply_formatted_diffs` on a span
starting at cursor `c`: the span characters paired with their format-map
entries, split at `bold` changes. -/
def equalSpanRuns (map : List Fmt) (dflt : Fmt) (c : Nat) (t : List Char) : List Run :=
  groupPairs (t.zip ((List.range t.length).map fun i => fmtAt map dflt (c + i)))

/-- The Delete branch of the deprecated `apply_formatted_diffs`: name, size and
bold copied from the format map at the cursor when in range, then forced
strike-through and red color. -/
def mkDeleteRunDep (map : List Fmt) (c : Nat) (t : List Char) : Run :=
  let base : Run :=
    match map.get? c with
    | some f =>
      { text := t
        name := if optStrTruthy f.name then f.name else none
        size := if optNatTruthy f.size then f.size else none
        bold := f.bold }
    | none => { text := t }
  { base with strike := some true, color := some RED }

/-- The Insert branch of the deprecated `apply_formatted_diffs`: only font
name and size are copied from the default format; forced yellow highlight, no
bold/italic/underline/color. -/
def mkInsertRunDep (dflt : Fmt) (t : List Char) : Run :=
  { text := t
    name := if optStrTruthy dflt.name then dflt.name else none
    size := if optNatTruthy dflt.size then dflt.size else none
    highlight := some YELLOW }

/-- The diff loop of the deprecated `apply_formatted_diffs`; the cursor
advances on Equal and Delete only. -/
def renderDepGo (map : List Fmt) (dflt : Fmt) : Nat → List Diff → List Run
  | _, [] => []
  | c, d :: rest =>
    if d.2 = [] then renderDepGo map dflt c rest
    else
      match d.1 with
      | Op.equal =>
        equalSpanRuns map dflt c d.2 ++ renderDepGo map dflt (c + d.2.length) rest
      | Op.delete =>
        mkDeleteRunDep map c d.2 :: renderDepGo map dflt (c + d.2.length) rest
      | Op.insert =>
        mkInsertRunDep dflt d.2 :: renderDepGo map dflt c rest

/-- `MenuRedliner.apply_formatted_diffs` of the deprecated file
(`default_format = char_format_map[0] if char_format_map else {}`). -/
def applyFormattedDiffsDep (runs : List Run) (diffs : List Diff) : List Run :=
  if runs = [] then renderNoRuns diffs
  else
    renderDepGo (buildCharFormatMap runs)
      ((buildCharFormatMap runs).headD emptyFmt) 0 diffs

/-! ## Eligibility checks and paragraph processing -/

/-- `MenuRedliner.paragraph_has_existing_redlines` (deprecated file 443–452). -/
def paragraphHasExistingRedlines (runs : List Run) : Bool :=
  runs.any fun r => decide (r.strike = some true) || optNatTruthy r.highlight

/-- The loop of `MenuRedliner.paragraph_has_mixed_bold` (deprecated file
454–476): runs with whitespace-only text are skipped; `bold = True` counts as
bold, `False`/unset as non-bold; true as soon as both kinds were seen. -/
def mixedBoldLoop : List Run → Bool → Bool → Bool
  | [], _, _ => false
  | r :: rest, hb, hnb =>
    if isWsOnly r.text then mixedBoldLoop rest hb hnb
    else
      let hb' := hb || decide (r.bold = some true)
      let hnb' := hnb || !(decide (r.bold = some true))
      if hb' && hnb' then true else mixedBoldLoop rest hb' hnb'

def paragraphHasMixedBold (runs : List Run) : Bool :=
  mixedBoldLoop runs false false

/-- `MenuRedliner.process_paragraph` of the active file (289–319): skip
whitespace-only paragraphs and unchanged corrections, otherwise diff and
re-render.  There is no eligibility gate in this file.  Returns the new run
list and whether the paragraph was modified. -/
def processParagraph (correct : List Char → List Char) (p : List Run) :
    List Run × Bool :=
  let origText := paraText p
  if isWsOnly origText then (p, false)
  else
    let corrected := correct origText
    if origText = corrected then (p, false)
    else (applyFormattedDiffs p (wordLevelDiffsFull origText corrected), true)

/-- `MenuRedliner.process_paragraph` of the deprecated file (478–516): also
skips any paragraph that already carries redlines (strike or highlight).  Its
docstring announces a mixed-bold skip as well, but the body never calls
`paragraph_has_mixed_bold`. -/
def processParagraphDep (correct : List Char → List Char) (p : List Run) :
    List Run × Bool :=
  let origText := paraText p
  if isWsOnly origText then (p, false)
  else if paragraphHasExistingRedlines p then (p, false)
  else
    let corrected := correct origText
    if origText = corrected then (p, false)
    else (applyFormattedDiffsDep p (wordLevelDiffsFullDep origText corrected), true)

/-! ## Claim C10 — the rendered paragraph text is the script text -/

/-- Concatenation of all span texts of a script, in order. -/
def diffTexts (ds : List Diff) : List Char := (ds.map Prod.snd).flatten

theorem paraText_nil : paraText [] = [] := rfl

theorem paraText_cons (r : Run) (rs : List Run) :
    paraText (r :: rs) = r.text ++ paraText rs := by
  simp [paraText]

theorem paraText_append (xs ys : List Run) :
    paraText (xs ++ ys) = paraText xs ++ paraText ys := by
  simp [paraText]

theorem text_applyDiffFormatting (op : Op) (r : Run) :
    (applyDiffFormatting op r).text = r.text := by
  cases op <;> rfl

theorem text_styleFromRun (sr : Option Run) (op : Op) (t : List Char) :
    (styleFromRun sr op t).text = t := by
  cases sr <;> rfl

theorem text_mkDeleteRunDep (map : List Fmt) (c : Nat) (t : List Char) :
    (mkDeleteRunDep map c t).text = t := by
  rw [mkDeleteRunDep]
  cases map.get? c <;> rfl

theorem paraText_groupPairsGo :
    ∀ (fuel : Nat) (ps : List (Char × Fmt)), ps.length ≤ fuel →
      paraText (groupPairsGo fuel ps) = ps.map Prod.fst := by
  intro fuel
  induction fuel with
  | zero =>
    intro ps h
    cases ps with
    | nil => rfl
    | cons p rest => simp at h
  | succ n ih =>
    intro ps h
    cases ps with
    | nil => rfl
    | cons p rest =>
      obtain ⟨ch, f⟩ := p
      simp only [List.length_cons, Nat.succ_le_succ_iff] at h
      rw [groupPairsGo, paraText_cons,
        ih _ (le_trans (rest.dropWhile_sublist _).length_le h)]
      show (ch :: (rest.takeWhile _).map Prod.fst) ++ (rest.dropWhile _).map Prod.fst = _
      rw [List.cons_append, ← List.map_append, List.takeWhile_append_dropWhile]
      rfl

theorem paraText_equalSpanRuns (map : List Fmt) (dflt : Fmt) (c : Nat) (t : List Char) :
    paraText (equalSpanRuns map dflt c t) = t := by
  rw [equalSpanRuns, groupPairs, paraText_groupPairsGo _ _ le_rfl]
  exact List.map_fst_zip _ _ (by simp)

theorem paraText_renderNoRuns (ds : List Diff) :
    paraText (renderNoRuns ds) = diffTexts ds := by
  induction ds with
  | nil => rfl
  | cons d rest ih =>
    rw [renderNoRuns, List.filterMap_cons]
    by_cases ht : d.2 = []
    · simp only [ht, if_pos rfl]
      rw [renderNoRuns] at ih
      simp [diffTexts, ih, ht]
    · simp only [if_neg ht]
      rw [paraText_cons]
      rw [renderNoRuns] at ih
      have htext : (match d.1 with
          | Op.delete => ({ text := d.2, strike := some true, color := some RED } : Run)
          | Op.insert => { text := d.2, highlight := some YELLOW }
          | Op.equal => { text := d.2 }).text = d.2 := by
        cases d.1 <;> rfl
      simp [diffTexts, ih, htext]

theorem paraText_renderCurGo (runs : List Run) :
    ∀ (ds : List Diff) (c : Nat), paraText (renderCurGo runs c ds) = diffTexts ds := by
  intro ds
  induction ds with
  | nil => intro c; rfl
  | cons d rest ih =>
    intro c
    rw [renderCurGo]
    by_cases ht : d.2 = []
    · simp [ht, ih, diffTexts]
    · simp only [if_neg ht]
      rw [paraText_cons, text_applyDiffFormatting, text_styleFromRun, ih]
      simp [diffTexts]

theorem paraText_renderDepGo (map : List Fmt) (dflt : Fmt) :
    ∀ (ds : List Diff) (c : Nat), paraText (renderDepGo map dflt c ds) = diffTexts ds := by
  intro ds
  induction ds with
  | nil => intro c; rfl
  | cons d rest ih =>
    intro c
    rw [renderDepGo]
    by_cases ht : d.2 = []
    · simp [ht, ih, diffTexts]
    · simp only [if_neg ht]
      obtain ⟨op, t⟩ := d
      cases op
      · rw [paraText_append, paraText_equalSpanRuns, ih]
        simp [diffTexts]
      · rw [paraText_cons, text_mkDeleteRunDep, ih]
        simp [diffTexts]
      · rw [paraText_cons, ih]
        simp [diffTexts, mkInsertRunDep]

/-- **C10.** For every edit script (in particular any whose spans are all
non-empty) and every paragraph, the plain text of the rebuilt paragraph —
under the active renderer and under the deprecated one — is exactly the
concatenation of all span texts of the script in order: every Equal, Delete
and Insert span is displayed exactly once, in script order. -/
theorem c10_rendered_text (runs : List Run) (diffs : List Diff)
    (h : ∀ d ∈ diffs, d.2 ≠ []) :
    paraText (applyFormattedDiffs runs diffs) = diffTexts diffs ∧
    paraText (applyFormattedDiffsDep runs diffs) = diffTexts diffs := by
  constructor
  · rw [applyFormattedDiffs]
    by_cases hr : runs = []
    · rw [if_pos hr]; exact paraText_renderNoRuns diffs
    · rw [if_neg hr]; exact paraText_renderCurGo runs diffs 0
  · rw [applyFormattedDiffsDep]
    by_cases hr : runs = []
    · rw [if_pos hr]; exact paraText_renderNoRuns diffs
    · rw [if_neg hr]; exact paraText_renderDepGo _ _ diffs 0

/-- Witness for C10: a bold-then-plain paragraph with an Equal/Delete/Insert
script. -/
theorem c10_rendered_text_witness :
    paraText (applyFormattedDiffs
        [{ text := "ab".toList, bold := some true }, { text := "cd".toList }]
        [(Op.equal, "ab".toList), (Op.delete, "cd".toList), (Op.insert, "xy".toList)]) =
      diffTexts [(Op.equal, "ab".toList), (Op.delete, "cd".toList), (Op.insert, "xy".toList)] ∧
    paraText (applyFormattedDiffsDep
        [{ text := "ab".toList, bold := some true }, { text := "cd".toList }]
        [(Op.equal, "ab".toList), (Op.delete, "cd".toList), (Op.insert, "xy".toList)]) =
      diffTexts [(Op.equal, "ab".toList), (Op.delete, "cd".toList), (Op.insert, "xy".toList)] :=
  c10_rendered_text _ _ (by decide)

/-! ## Claim C3 — insertion style isolation -/

theorem highlight_groupPairsGo (fuel : Nat) (ps : List (Char × Fmt)) :
    ∀ r ∈ groupPairsGo fuel ps, r.highlight = none := by
  induction fuel generalizing ps with
  | zero => cases ps <;> simp [groupPairsGo]
  | succ n ih =>
    cases ps with
    | nil => simp [groupPairsGo]
    | cons p rest =>
      obtain ⟨ch, f⟩ := p
      rw [groupPairsGo]
      intro r hr
      rcases List.mem_cons.mp hr with h | h
      · rw [h]; rfl
      · exact ih _ r h

theorem highlight_mkDeleteRunDep (map : List Fmt) (c : Nat) (t : List Char) :
    (mkDeleteRunDep map c t).highlight = none := by
  rw [mkDeleteRunDep]
  cases map.get? c <;> rfl

/-- Any run that the deprecated renderer emits with a highlight is an Insert
run, and it is exactly the Insert-branch run built from the default format. -/
theorem renderDepGo_highlighted (map : List Fmt) (dflt : Fmt) :
    ∀ (ds : List Diff) (c : Nat), ∀ r ∈ renderDepGo map dflt c ds,
      r.highlight ≠ none → r = mkInsertRunDep dflt r.text := by
  intro ds
  induction ds with
  | nil => simp [renderDepGo]
  | cons d rest ih =>
    intro c r hr hh
    rw [renderDepGo] at hr
    by_cases ht : d.2 = []
    · rw [if_pos ht] at hr
      exact ih c r hr hh
    · rw [if_neg ht] at hr
      obtain ⟨op, t⟩ := d
      cases op
      · rcases List.mem_append.mp hr with h | h
        · exact absurd (highlight_groupPairsGo _ _ r h) hh
        · exact ih _ r h hh
      · rcases List.mem_cons.mp hr with h | h
        · exact absurd (h ▸ highlight_mkDeleteRunDep map c t) hh
        · exact ih _ r h hh
      · rcases List.mem_cons.mp hr with h | h
        · rw [h]; rfl
        · exact ih _ r h hh

/-- **C3 (amended).** In the deprecated `apply_formatted_diffs`, for every edit
script and every paragraph with at least one run, each run emitted for an
Insert span (identified by the insertion highlight marker — Equal and Delete
runs never carry one) is never bold and inherits no bold/italic/underline/
color/strike from any original run: it carries only the font name and size of
the default format (the format-map entry at offset 0) and the yellow
insertion highlight; and an Insert span does not advance the original-text
cursor. -/
theorem c3_insert_isolation (runs : List Run) (hne : runs ≠ []) (diffs : List Diff) :
    (∀ r ∈ applyFormattedDiffsDep runs diffs, r.highlight ≠ none →
      r.highlight = some YELLOW ∧ r.bold = none ∧ r.italic = none ∧
      r.underline = none ∧ r.color = none ∧ r.strike = none ∧
      r.name = (if optStrTruthy ((buildCharFormatMap runs).headD emptyFmt).name
        then ((buildCharFormatMap runs).headD emptyFmt).name else none) ∧
      r.size = (if optNatTruthy ((buildCharFormatMap runs).headD emptyFmt).size
        then ((buildCharFormatMap runs).headD emptyFmt).size else none)) ∧
    (∀ (c : Nat) (t : List Char) (rest : List Diff), t ≠ [] →
      renderDepGo (buildCharFormatMap runs) ((buildCharFormatMap runs).headD emptyFmt)
          c ((Op.insert, t) :: rest) =
        mkInsertRunDep ((buildCharFormatMap runs).headD emptyFmt) t ::
          renderDepGo (buildCharFormatMap runs) ((buildCharFormatMap runs).headD emptyFmt)
            c rest) := by
  constructor
  · intro r hr hh
    rw [applyFormattedDiffsDep, if_neg hne] at hr
    have := renderDepGo_highlighted _ _ diffs 0 r hr hh
    rw [this]
    exact ⟨rfl, rfl, rfl, rfl, rfl, rfl, rfl, rfl⟩
  · intro c t rest ht
    rw [renderDepGo, if_neg ht]

/-- Witness for the amended C3: inserting `"xy"` right after a deleted bold
run — the insert-emitted run is highlighted and carries no bold. -/
theorem c3_insert_isolation_witness :
    ((applyFormattedDiffsDep [{ text := "ab".toList, bold := some true }]
        [(Op.delete, "ab".toList), (Op.insert, "xy".toList)]).getD 1
        { text := [] }).highlight = some YELLOW ∧
    ((applyFormattedDiffsDep [{ text := "ab".toList, bold := some true }]
        [(Op.delete, "ab".toList), (Op.insert, "xy".toList)]).getD 1
        { text := [] }).bold = none := by
  have h := (c3_insert_isolation [{ text := "ab".toList, bold := some true }]
      (by decide) [(Op.delete, "ab".toList), (Op.insert, "xy".toList)]).1
      ((applyFormattedDiffsDep [{ text := "ab".toList, bold := some true }]
        [(Op.delete, "ab".toList), (Op.insert, "xy".toList)]).getD 1 { text := [] })
      (by decide) (by decide)
  exact ⟨h.1, h.2.1⟩

/-- **C3 counterexample.** In the active `apply_formatted_diffs`, an Insert run
adjacent to a deleted bold run inherits the bold: on a single bold run `"ab"`
with script Delete `"ab"`, Insert `"xy"`, the insert-emitted run (the one
carrying the insertion highlight) has `bold = True`. -/
theorem c3_counterexample :
    ((applyFormattedDiffs [{ text := "ab".toList, bold := some true }]
        [(Op.delete, "ab".toList), (Op.insert, "xy".toList)]).getD 1
        { text := [] }).highlight = some YELLOW ∧
    ((applyFormattedDiffs [{ text := "ab".toList, bold := some true }]
        [(Op.delete, "ab".toList), (Op.insert, "xy".toList)]).getD 1
        { text := [] }).bold = some true := by
  decide

/-! ## Claim C5 — the already-redlined gate -/

/-- **C5 (amended).** The deprecated `process_paragraph` never modifies a
paragraph that contains a run with strike set or a highlight marker, whatever
the correction function proposes: the run list is returned unchanged and the
paragraph is reported as not modified. -/
theorem c5_redline_gate (correct : List Char → List Char) (p : List Run)
    (h : ∃ r ∈ p, r.strike = some true ∨ optNatTruthy r.highlight = true) :
    processParagraphDep correct p = (p, false) := by
  have hgate : paragraphHasExistingRedlines p = true := by
    obtain ⟨r, hr, hcase⟩ := h
    rw [paragraphHasExistingRedlines, List.any_eq_true]
    refine ⟨r, hr, ?_⟩
    rcases hcase with h1 | h1 <;> simp [h1]
  rw [processParagraphDep]
  by_cases hws : isWsOnly (paraText p)
  · rw [if_pos hws]
  · rw [if_neg hws, if_pos hgate]

/-- Witness for the amended C5: a struck-through paragraph with a correction
that proposes different text is left untouched. -/
theorem c5_redline_gate_witness :
    processParagraphDep (fun t => t ++ ['c'])
        [{ text := "ab".toList, strike := some true }] =
      ([{ text := "ab".toList, strike := some true }], false) :=
  c5_redline_gate _ _ ⟨{ text := "ab".toList, strike := some true }, by decide, by decide⟩

/-- **C5 counterexample.** The active `process_paragraph` has no eligibility
gate: a paragraph whose only run is struck through is rewritten (and reported
modified) as soon as the correction function changes the text. -/
theorem c5_counterexample :
    (processParagraph (fun t => t ++ ['c'])
        [{ text := "ab".toList, strike := some true }]).2 = true ∧
    (processParagraph (fun t => t ++ ['c'])
        [{ text := "ab".toList, strike := some true }]).1 ≠
      [{ text := "ab".toList, strike := some true }] := by
  decide

/-! ## Claim C6 — the mixed-bold gate is never applied -/

/-- **C6.** The deprecated file defines `paragraph_has_mixed_bold` and its
`process_paragraph` docstring (and the spec's Gate B) promise that mixed-bold
paragraphs are skipped, but `process_paragraph` never calls the predicate: a
paragraph with a bold run `"Dish"` and a non-bold run `" tuna"` is mixed-bold,
yet a correction that changes the text rewrites it and reports it modified. -/
theorem c6_mixed_bold_not_enforced :
    paragraphHasMixedBold
        [{ text := "Dish".toList, bold := some true }, { text := " tuna".toList }] = true ∧
    (processParagraphDep
        (fun t => if t = "Dish tuna".toList then "Dish tunna".toList else t)
        [{ text := "Dish".toList, bold := some true }, { text := " tuna".toList }]).2 = true ∧
    (processParagraphDep
        (fun t => if t = "Dish tuna".toList then "Dish tunna".toList else t)
        [{ text := "Dish".toList, bold := some true }, { text := " tuna".toList }]).1 ≠
      [{ text := "Dish".toList, bold := some true }, { text := " tuna".toList }] := by
  decide

/-! ## Per-character bold bookkeeping for the deprecated renderer (C2, C7) -/

/-- Drop the Insert-emitted runs of a rendered paragraph (they are exactly the
runs carrying a highlight; Equal and Delete runs never do). -/
def stripInserts (runs : List Run) : List Run :=
  runs.filter fun r => decide (r.highlight = none)

/-- The characters of a run list, each annotated with its run's `bold`. -/
def flattenBold (runs : List Run) : List (Char × Option Bool) :=
  (runs.map fun r => r.text.map fun ch => (ch, r.bold)).flatten

theorem flattenBold_nil : flattenBold [] = [] := rfl

theorem flattenBold_cons (r : Run) (rs : List Run) :
    flattenBold (r :: rs) = r.text.map (fun ch => (ch, r.bold)) ++ flattenBold rs := by
  simp [flattenBold]

theorem flattenBold_append (xs ys : List Run) :
    flattenBold (xs ++ ys) = flattenBold xs ++ flattenBold ys := by
  simp [flattenBold]

theorem selJoin_cons (P : Op → Bool) (d : Diff) (ds : List Diff) :
    selJoin P (d :: ds) = (if P d.1 then d.2 else []) ++ selJoin P ds := by
  by_cases hp : P d.1 <;> simp [selJoin, hp]

/-- Delete spans start inside a region of the format map whose `bold` is
constant: per span at cursor `c`, the `bold` entries it covers all equal the
entry at `c`. -/
def DelConstFrom (bolds : List (Option Bool)) : Nat → List Diff → Prop
  | _, [] => True
  | c, d :: rest =>
    (d.1 = Op.delete → (bolds.drop c).take d.2.length =
      List.replicate d.2.length (bolds.getD c none)) ∧
    DelConstFrom bolds (if d.1 = Op.insert then c else c + d.2.length) rest

/-- Every Delete and Insert span of the script sits at or after `boundary`
(Delete spans start there and, by the script's validity, lie wholly beyond it;
Insert spans are positioned there). -/
def insideFrom (boundary : Nat) : Nat → List Diff → Bool
  | _, [] => true
  | c, d :: rest =>
    (match d.1 with
     | Op.equal => true
     | _ => decide (boundary ≤ c)) &&
    insideFrom boundary (if d.1 = Op.insert then c else c + d.2.length) rest

theorem zip_append_split (t u : List Char) (zs : List (Option Bool)) :
    (t ++ u).zip zs = t.zip (zs.take t.length) ++ u.zip (zs.drop t.length) := by
  induction t generalizing zs with
  | nil => simp
  | cons c cs ih =>
    cases zs with
    | nil => simp
    | cons z ztail => simp [ih]

theorem zip_replicate_map (t : List Char) (b : Option Bool) :
    t.zip (List.replicate t.length b) = t.map fun ch => (ch, b) := by
  induction t with
  | nil => rfl
  | cons c cs ih => simp [List.replicate_succ, ih]

theorem text_mkEqualRun (t : List Char) (f : Fmt) : (mkEqualRun t f).text = t := rfl

theorem bold_mkEqualRun (t : List Char) (f : Fmt) : (mkEqualRun t f).bold = f.bold := rfl

theorem flattenBold_groupPairsGo :
    ∀ (fuel : Nat) (ps : List (Char × Fmt)), ps.length ≤ fuel →
      flattenBold (groupPairsGo fuel ps) = ps.map fun p => (p.1, p.2.bold) := by
  intro fuel
  induction fuel with
  | zero =>
    intro ps h
    cases ps with
    | nil => rfl
    | cons p rest => simp at h
  | succ n ih =>
    intro ps h
    cases ps with
    | nil => rfl
    | cons p rest =>
      obtain ⟨ch, f⟩ := p
      simp only [List.length_cons, Nat.succ_le_succ_iff] at h
      rw [groupPairsGo, flattenBold_cons,
        ih _ (le_trans (rest.dropWhile_sublist _).length_le h)]
      have hsame : ((rest.takeWhile fun p => decide (p.2.bold = f.bold)).map Prod.fst).map
          (fun c => (c, f.bold)) =
          (rest.takeWhile fun p => decide (p.2.bold = f.bold)).map
            (fun p => (p.1, p.2.bold)) := by
        rw [List.map_map]
        refine List.map_congr_left fun p hp => ?_
        have := List.mem_takeWhile_imp hp
        simp only [decide_eq_true_eq] at this
        simp [this]
      rw [text_mkEqualRun, bold_mkEqualRun, List.map_cons, hsame, List.cons_append,
        ← List.map_append, List.takeWhile_append_dropWhile]
      rfl

theorem flattenBold_groupPairs (ps : List (Char × Fmt)) :
    flattenBold (groupPairs ps) = ps.map fun p => (p.1, p.2.bold) :=
  flattenBold_groupPairsGo ps.length ps le_rfl

theorem fmtAt_range_eq_slice (map : List Fmt) (dflt : Fmt) (c : Nat) (n : Nat)
    (h : c + n ≤ map.length) :
    ((List.range n).map fun i => fmtAt map dflt (c + i)) = (map.drop c).take n := by
  apply List.ext_getElem
  · simp; omega
  · intro i h1 h2
    simp only [List.getElem_map, List.getElem_range, List.getElem_take, List.getElem_drop]
    rw [fmtAt]
    have hci : c + i < map.length := by
      simp at h1
      omega
    rw [List.get?_eq_getElem?, List.getElem?_eq_getElem hci]
    rfl

theorem flattenBold_equalSpanRuns (map : List Fmt) (dflt : Fmt) (c : Nat)
    (t : List Char) (h : c + t.length ≤ map.length) :
    flattenBold (equalSpanRuns map dflt c t) =
      t.zip (((map.map Fmt.bold).drop c).take t.length) := by
  rw [equalSpanRuns, flattenBold_groupPairs, fmtAt_range_eq_slice map dflt c t.length h]
  have : (t.zip ((map.drop c).take t.length)).map (fun p => (p.1, p.2.bold)) =
      t.zip (((map.drop c).take t.length).map Fmt.bold) := by
    rw [List.zip_map_right]
    rfl
  rw [this, List.map_take, List.map_drop]

theorem stripInserts_append (xs ys : List Run) :
    stripInserts (xs ++ ys) = stripInserts xs ++ stripInserts ys := by
  simp [stripInserts]

theorem stripInserts_equalSpanRuns (map : List Fmt) (dflt : Fmt) (c : Nat) (t : List Char) :
    stripInserts (equalSpanRuns map dflt c t) = equalSpanRuns map dflt c t := by
  rw [stripInserts, List.filter_eq_self]
  intro r hr
  simp [highlight_groupPairsGo _ _ r hr]

theorem bold_mkDeleteRunDep (map : List Fmt) (c : Nat) (t : List Char) :
    (mkDeleteRunDep map c t).bold = (map.map Fmt.bold).getD c none := by
  rw [mkDeleteRunDep, List.getD_eq_getElem?_getD, List.getElem?_map,
    ← List.get?_eq_getElem?]
  cases map.get? c <;> rfl

/-- Rendering invariant of the deprecated `apply_formatted_diffs`: if the
script's Equal+Delete spans spell the original text from cursor `c` on, and
every Delete span covers a constant-`bold` region of the format map, then the
non-Insert output runs carry every original character with exactly its format
map `bold` attribute, in order. -/
theorem renderDepGo_bold_inv (map : List Fmt) (dflt : Fmt) (orig : List Char)
    (hlen : map.length = orig.length) :
    ∀ (ds : List Diff) (c : Nat),
      selJoin keepsOrig ds = orig.drop c →
      DelConstFrom (map.map Fmt.bold) c ds →
      flattenBold (stripInserts (renderDepGo map dflt c ds)) =
        (orig.drop c).zip ((map.map Fmt.bold).drop c) := by
  intro ds
  induction ds with
  | nil =>
    intro c hsel _
    have hdrop : orig.drop c = [] := by rw [← hsel]; rfl
    simp [renderDepGo, stripInserts, flattenBold, hdrop]
  | cons d rest ih =>
    intro c hsel hdc
    obtain ⟨op, t⟩ := d
    simp only [DelConstFrom] at hdc
    obtain ⟨hd1, hd2⟩ := hdc
    rw [renderDepGo]
    by_cases ht : t = []
    · rw [if_pos ht]
      rw [selJoin_cons, ht] at hsel
      simp only [ite_self, List.nil_append] at hsel
      have hcur : (if op = Op.insert then c else c + t.length) = c := by
        rw [ht]; simp
      rw [hcur] at hd2
      exact ih c hsel hd2
    · rw [if_neg ht]
      cases op
      · -- Equal span
        rw [selJoin_cons] at hsel
        simp only [keepsOrig, if_true] at hsel
        have hlens := congrArg List.length hsel
        simp only [List.length_append, List.length_drop] at hlens
        have hle : c + t.length ≤ orig.length := by
          by_cases hc : c ≤ orig.length
          · omega
          · exfalso
            have : orig.drop c = [] := List.drop_eq_nil_of_le (by omega)
            rw [this] at hsel
            exact ht (List.append_eq_nil.mp hsel).1
        have htake : (orig.drop c).take t.length = t := by
          rw [← hsel]; exact List.take_left t _
        have hsplit : orig.drop c = t ++ orig.drop (c + t.length) := by
          have h0 := (List.drop_take_append_drop orig c t.length).symm
          rw [htake] at h0
          exact h0
        have hdrop : orig.drop (c + t.length) = selJoin keepsOrig rest :=
          List.append_cancel_left (hsplit.symm.trans hsel.symm)
        simp only [if_neg (by simp : ¬(Op.equal = Op.insert))] at hd2
        rw [stripInserts_append, stripInserts_equalSpanRuns, flattenBold_append,
          flattenBold_equalSpanRuns map dflt c t (by omega),
          ih (c + t.length) hdrop.symm hd2]
        rw [hsplit, zip_append_split, List.drop_drop]
      · -- Delete span
        rw [selJoin_cons] at hsel
        simp only [keepsOrig, if_true] at hsel
        have hle : c + t.length ≤ orig.length := by
          have hlens := congrArg List.length hsel
          simp only [List.length_append, List.length_drop] at hlens
          by_cases hc : c ≤ orig.length
          · omega
          · exfalso
            have : orig.drop c = [] := List.drop_eq_nil_of_le (by omega)
            rw [this] at hsel
            exact ht (List.append_eq_nil.mp hsel).1
        have htake : (orig.drop c).take t.length = t := by
          rw [← hsel]; exact List.take_left t _
        have hsplit : orig.drop c = t ++ orig.drop (c + t.length) := by
          have h0 := (List.drop_take_append_drop orig c t.length).symm
          rw [htake] at h0
          exact h0
        have hdrop : orig.drop (c + t.length) = selJoin keepsOrig rest :=
          List.append_cancel_left (hsplit.symm.trans hsel.symm)
        simp only [if_neg (by simp : ¬(Op.delete = Op.insert))] at hd2
        have hconst := hd1 rfl
        have hstrip : stripInserts (mkDeleteRunDep map c t :: renderDepGo map dflt
            (c + t.length) rest) =
            mkDeleteRunDep map c t :: stripInserts (renderDepGo map dflt (c + t.length) rest) := by
          rw [stripInserts, List.filter_cons,
            if_pos (by simp [highlight_mkDeleteRunDep])]
          rfl
        rw [hstrip, flattenBold_cons, text_mkDeleteRunDep, bold_mkDeleteRunDep,
          ih (c + t.length) hdrop.symm hd2]
        rw [hsplit, zip_append_split, List.drop_drop]
        congr 1
        rw [hconst, zip_replicate_map]
      · -- Insert span
        rw [selJoin_cons] at hsel
        simp only [keepsOrig, if_false, List.nil_append] at hsel
        simp only [if_pos rfl] at hd2
        have hstrip : stripInserts (mkInsertRunDep dflt t :: renderDepGo map dflt c rest) =
            stripInserts (renderDepGo map dflt c rest) := by
          rw [stripInserts, List.filter_cons, if_neg (by simp [mkInsertRunDep, YELLOW])]
          rfl
        rw [hstrip]
        exact ih c hsel hd2

/-! ## Claim C2 — formatting preservation across the bold boundary -/

theorem selJoin_tail_drop (orig t : List Char) (rest : List Diff) (c : Nat)
    (h : t ++ selJoin keepsOrig rest = orig.drop c) :
    selJoin keepsOrig rest = orig.drop (c + t.length) := by
  rw [← List.drop_drop, ← h]
  exact (List.drop_left t _).symm

theorem selJoin_head_bound (orig t : List Char) (rest : List Diff) (c : Nat)
    (h : t ++ selJoin keepsOrig rest = orig.drop c) (ht : t ≠ []) :
    c + t.length ≤ orig.length := by
  have hlens := congrArg List.length h
  simp only [List.length_append, List.length_drop] at hlens
  by_cases hc : c ≤ orig.length
  · omega
  · exfalso
    have : orig.drop c = [] := List.drop_eq_nil_of_le (by omega)
    rw [this] at h
    exact ht (List.append_eq_nil.mp h).1

/-- If every Delete/Insert span of a valid script sits at or beyond the first
`n1` characters, then over a format map whose `bold` is `b1` on the first `n1`
characters and `b2` on the remaining `n2`, every Delete span covers a
constant-`bold` region. -/
theorem delConst_of_inside (b1 b2 : Option Bool) (n1 n2 : Nat) (orig : List Char)
    (hlen : orig.length = n1 + n2) :
    ∀ (ds : List Diff) (c : Nat),
      selJoin keepsOrig ds = orig.drop c →
      insideFrom n1 c ds = true →
      DelConstFrom (List.replicate n1 b1 ++ List.replicate n2 b2) c ds := by
  intro ds
  induction ds with
  | nil => intro c _ _; trivial
  | cons d rest ih =>
    intro c hsel hin
    obtain ⟨op, t⟩ := d
    rw [insideFrom, Bool.and_eq_true] at hin
    obtain ⟨hin1, hin2⟩ := hin
    cases op
    · -- Equal
      rw [selJoin_cons] at hsel
      simp only [keepsOrig, if_true] at hsel
      exact ⟨(fun h => nomatch h), ih _ (selJoin_tail_drop orig t rest c hsel) hin2⟩
    · -- Delete
      rw [selJoin_cons] at hsel
      simp only [keepsOrig, if_true] at hsel
      have hn1c : n1 ≤ c := of_decide_eq_true hin1
      refine ⟨fun _ => ?_, ih _ (selJoin_tail_drop orig t rest c hsel) hin2⟩
      by_cases ht : t = []
      · simp [ht]
      · have htl : 0 < t.length := List.length_pos.mpr ht
        have hle : c + t.length ≤ orig.length := selJoin_head_bound orig t rest c hsel ht
        have hdropped : (List.replicate n1 b1 ++ List.replicate n2 b2).drop c =
            List.replicate (n2 - (c - n1)) b2 := by
          rw [List.drop_append_eq_append_drop, List.drop_eq_nil_of_le (by simp; omega),
            List.drop_replicate]
          simp
        have hgetd : (List.replicate n1 b1 ++ List.replicate n2 b2).getD c none = b2 := by
          rw [List.getD_eq_getElem?_getD, List.getElem?_append_right (by simp; omega),
            List.getElem?_replicate, if_pos (by simp; omega)]
          rfl
        show ((List.replicate n1 b1 ++ List.replicate n2 b2).drop c).take t.length =
          List.replicate t.length ((List.replicate n1 b1 ++ List.replicate n2 b2).getD c none)
        rw [hdropped, hgetd, List.take_replicate]
        congr 1
        omega
    · -- Insert
      rw [selJoin_cons] at hsel
      simp only [keepsOrig, if_false, List.nil_append] at hsel
      exact ⟨(fun h => nomatch h), ih _ hsel hin2⟩

theorem buildCharFormatMap_pair (r1 r2 : Run) :
    buildCharFormatMap [r1, r2] =
      List.replicate r1.text.length (runFmt r1) ++
        List.replicate r2.text.length (runFmt r2) := by
  simp [buildCharFormatMap]

theorem map_fst_pairs (b : Option Bool) (l : List Char) :
    (l.map fun ch => (ch, b)).map Prod.fst = l := by
  induction l with
  | nil => rfl
  | cons x xs ihx => simp [ihx]

theorem paraText_eq_map_fst_flattenBold (rs : List Run) :
    paraText rs = (flattenBold rs).map Prod.fst := by
  induction rs with
  | nil => rfl
  | cons r rest ih =>
    rw [paraText_cons, flattenBold_cons, List.map_append, ih, map_fst_pairs]

/-- **C2 (amended).** For a paragraph of a bold run `r1` followed by a
non-bold run `r2`, and an edit script that reconstructs the original text and
whose Delete/Insert spans all sit inside the non-bold portion, the deprecated
`apply_formatted_diffs` keeps the bold boundary at the original offset: the
characters of the non-Insert output runs are exactly the original characters
in order, the `r1` ones in runs with `r1`'s bold and the `r2` ones in runs
with `r2`'s bold (Equal spans are split where the format map's `bold`
changes). -/
theorem c2_equal_span_formatting (r1 r2 : Run) (diffs : List Diff)
    (hb1 : r1.bold = some true) (hb2 : r2.bold ≠ some true)
    (hed : selJoin keepsOrig diffs = r1.text ++ r2.text)
    (hin : insideFrom r1.text.length 0 diffs = true) :
    flattenBold (stripInserts (applyFormattedDiffsDep [r1, r2] diffs)) =
      r1.text.map (fun ch => (ch, r1.bold)) ++
        r2.text.map (fun ch => (ch, r2.bold)) ∧
    paraText (stripInserts (applyFormattedDiffsDep [r1, r2] diffs)) =
      r1.text ++ r2.text := by
  have hmap := buildCharFormatMap_pair r1 r2
  have hbolds : (buildCharFormatMap [r1, r2]).map Fmt.bold =
      List.replicate r1.text.length r1.bold ++ List.replicate r2.text.length r2.bold := by
    rw [hmap, List.map_append, List.map_replicate, List.map_replicate]
    rfl
  have hlen : (buildCharFormatMap [r1, r2]).length = (r1.text ++ r2.text).length := by
    rw [hmap]; simp
  have hdc : DelConstFrom ((buildCharFormatMap [r1, r2]).map Fmt.bold) 0 diffs := by
    rw [hbolds]
    exact delConst_of_inside r1.bold r2.bold r1.text.length r2.text.length
      (r1.text ++ r2.text) (by simp) diffs 0 (by simpa using hed) hin
  have hmain := renderDepGo_bold_inv (buildCharFormatMap [r1, r2])
      ((buildCharFormatMap [r1, r2]).headD emptyFmt) (r1.text ++ r2.text) hlen
      diffs 0 (by simpa using hed) hdc
  rw [List.drop_zero, List.drop_zero, hbolds] at hmain
  have happ : applyFormattedDiffsDep [r1, r2] diffs =
      renderDepGo (buildCharFormatMap [r1, r2])
        ((buildCharFormatMap [r1, r2]).headD emptyFmt) 0 diffs := by
    rw [applyFormattedDiffsDep, if_neg (by simp)]
  have hflat : flattenBold (stripInserts (applyFormattedDiffsDep [r1, r2] diffs)) =
      r1.text.map (fun ch => (ch, r1.bold)) ++ r2.text.map (fun ch => (ch, r2.bold)) := by
    rw [happ, hmain, zip_append_split,
      List.take_left' (by simp), List.drop_left' (by simp),
      zip_replicate_map, zip_replicate_map]
  refine ⟨hflat, ?_⟩
  rw [paraText_eq_map_fst_flattenBold, hflat]
  rw [List.map_append, map_fst_pairs, map_fst_pairs]

/-- Witness for the amended C2: bold `"AB"` + plain `"cd"`, with a Delete and
an Insert confined to the non-bold portion. -/
theorem c2_equal_span_formatting_witness :
    flattenBold (stripInserts (applyFormattedDiffsDep
        [{ text := "AB".toList, bold := some true }, { text := "cd".toList }]
        [(Op.equal, "AB".toList), (Op.delete, "c".toList),
         (Op.insert, "x".toList), (Op.equal, "d".toList)])) =
      "AB".toList.map (fun ch => (ch, (some true : Option Bool))) ++
        "cd".toList.map (fun ch => (ch, (none : Option Bool))) ∧
    paraText (stripInserts (applyFormattedDiffsDep
        [{ text := "AB".toList, bold := some true }, { text := "cd".toList }]
        [(Op.equal, "AB".toList), (Op.delete, "c".toList),
         (Op.insert, "x".toList), (Op.equal, "d".toList)])) =
      "AB".toList ++ "cd".toList :=
  c2_equal_span_formatting
    { text := "AB".toList, bold := some true } { text := "cd".toList } _
    rfl (by decide) (by decide) (by decide)

/-- **C2 counterexample.** The active `apply_formatted_diffs` styles a whole
Equal span from the run at the span's start: on bold `"AB"` + plain `"cd"`
with the single span Equal `"ABcd"` (whose Delete/Insert spans — there are
none — trivially sit in the non-bold portion), the characters `c`, `d` of the
non-bold run are emitted in a bold run, moving the bold boundary. -/
theorem c2_counterexample :
    selJoin keepsOrig [(Op.equal, "ABcd".toList)] = "AB".toList ++ "cd".toList ∧
    insideFrom "AB".toList.length 0 [(Op.equal, "ABcd".toList)] = true ∧
    flattenBold (stripInserts (applyFormattedDiffs
        [{ text := "AB".toList, bold := some true }, { text := "cd".toList }]
        [(Op.equal, "ABcd".toList)])) ≠
      "AB".toList.map (fun ch => (ch, (some true : Option Bool))) ++
        "cd".toList.map (fun ch => (ch, (none : Option Bool))) := by
  decide

/-! ## Claim C7 — round-trip identity -/

theorem findLongestMatch_empty (a b : List (List Char)) (x y : Nat) :
    findLongestMatch a b x x y y = (x, y, 0) := by
  simp [findLongestMatch]

/-- On two copies of the same non-empty sequence the longest match is the
whole sequence, found at `(0, 0)`. -/
theorem findLongestMatch_self (a : List (List Char)) (h : a ≠ []) :
    findLongestMatch a a 0 a.length 0 a.length = (0, 0, a.length) := by
  obtain ⟨m, hm⟩ : ∃ m, a.length = m + 1 := by
    cases a with
    | nil => exact absurd rfl h
    | cons x xs => exact ⟨xs.length, rfl⟩
  rw [findLongestMatch]
  simp only [Nat.sub_zero, Nat.min_self]
  have hrange : List.range a.length = 0 :: (List.range m).map Nat.succ := by
    rw [hm, List.range_succ_eq_map]
  rw [hrange, List.findSome?_cons]
  have hsize : findMatchOfSize a a 0 a.length 0 a.length (a.length - 0) =
      some (0, 0) := by
    rw [Nat.sub_zero, findMatchOfSize]
    have h1 : a.length + 1 - a.length - 0 = 1 := by omega
    rw [h1]
    have hr1 : List.range' 0 1 = [0] := rfl
    rw [hr1, List.findSome?_cons, List.findSome?_cons]
    rw [if_pos rfl]
  rw [hsize]
  rfl

theorem matchBlocksRec_empty (a b : List (List Char)) (f x y : Nat) :
    matchBlocksRec a b (f + 1) x x y y = [] := by
  rw [matchBlocksRec]
  simp [findLongestMatch_empty]

theorem matchBlocksRec_self (a : List (List Char)) (h : a ≠ []) (f : Nat) (hf : 1 ≤ f) :
    matchBlocksRec a a (f + 1) 0 a.length 0 a.length = [(0, 0, a.length)] := by
  obtain ⟨g, hg⟩ : ∃ g, f = g + 1 := ⟨f - 1, by omega⟩
  have hn : a.length ≠ 0 := by
    cases a with
    | nil => exact absurd rfl h
    | cons x xs => simp
  rw [matchBlocksRec]
  simp only [findLongestMatch_self a h]
  rw [if_neg hn, hg]
  simp only [Nat.zero_add]
  rw [matchBlocksRec_empty, matchBlocksRec_empty]
  rfl

theorem matchingBlocks_self (a : List (List Char)) (h : a ≠ []) :
    matchingBlocks a a = [(0, 0, a.length), (a.length, a.length, 0)] := by
  have hn : a.length ≠ 0 := by
    cases a with
    | nil => exact absurd rfl h
    | cons x xs => simp
  rw [matchingBlocks,
    matchBlocksRec_self a h (a.length + a.length) (by omega)]
  rw [nonAdjGo, if_pos ⟨rfl, rfl⟩, nonAdjGo]
  simp [hn]

theorem getOpcodes_self (a : List (List Char)) (h : a ≠ []) :
    getOpcodes a a = [⟨OTag.equal, 0, a.length, 0, a.length⟩] := by
  have hn : a.length ≠ 0 := by
    cases a with
    | nil => exact absurd rfl h
    | cons x xs => simp
  rw [getOpcodes, matchingBlocks_self a h]
  rw [opcodesFromBlocks]
  rw [if_neg (by simp), if_neg (by simp), if_neg (by simp), if_pos hn]
  rw [opcodesFromBlocks]
  rw [if_neg (by simp), if_neg (by simp), if_neg (by simp), if_neg (by simp)]
  simp [opcodesFromBlocks]

/-- Diffing a non-empty text against itself yields the single Equal span
covering the whole text. -/
theorem wordLevelDiffsFull_self (t : List Char) (h : t ≠ []) :
    wordLevelDiffsFull t t = [(Op.equal, t)] := by
  have htok : tokenize t ≠ [] := by
    cases t with
    | nil => exact absurd rfl h
    | cons c cs => exact tokenize_ne_nil
  rw [wordLevelDiffsFull, wordLevelDiffs, getOpcodes_self _ htok, rawDiffs]
  have hsl : opSlice (tokenize t) 0 (tokenize t).length = t := by
    rw [opSlice]
    simp [join_tokenize]
  simp only [rawDiffs, hsl]
  rw [if_neg h]
  rfl

theorem pred_head_dropWhile {α : Type} (p : α → Bool) :
    ∀ (l : List α) (q : α) (tail : List α), l.dropWhile p = q :: tail → p q = false := by
  intro l
  induction l with
  | nil => intro q tail h; simp [List.dropWhile] at h
  | cons x xs ih =>
    intro q tail h
    rw [List.dropWhile_cons] at h
    by_cases hp : p x = true
    · rw [if_pos hp] at h
      exact ih q tail h
    · rw [if_neg hp] at h
      obtain ⟨h1, _⟩ := List.cons.inj h
      rw [← h1]
      exact Bool.not_eq_true _ |>.mp hp

/-- The Equal-branch walk closes a run exactly where `bold` changes: adjacent
output runs of the walk always differ in `bold`. -/
theorem chain_groupPairsGo :
    ∀ (fuel : Nat) (ps : List (Char × Fmt)), ps.length ≤ fuel →
      List.Chain' (fun x y => x.bold ≠ y.bold) (groupPairsGo fuel ps) := by
  intro fuel
  induction fuel with
  | zero =>
    intro ps _
    cases ps <;> simp [groupPairsGo]
  | succ n ih =>
    intro ps h
    cases ps with
    | nil => simp [groupPairsGo]
    | cons p rest =>
      obtain ⟨ch, f⟩ := p
      simp only [List.length_cons, Nat.succ_le_succ_iff] at h
      rw [groupPairsGo]
      refine List.chain'_cons'.mpr
        ⟨?_, ih _ (le_trans (rest.dropWhile_sublist _).length_le h)⟩
      intro y hy
      cases hdw : rest.dropWhile (fun q => decide (q.2.bold = f.bold)) with
      | nil =>
        rw [hdw] at hy
        cases hn : n <;> simp [groupPairsGo, hn] at hy
      | cons q tail =>
        rw [hdw] at hy
        have hqne : q.2.bold ≠ f.bold := by
          have := pred_head_dropWhile _ rest q tail hdw
          simpa using this
        have hlen : (q :: tail).length ≤ n :=
          le_trans (hdw ▸ (rest.dropWhile_sublist _).length_le) h
        obtain ⟨m, hm⟩ : ∃ m, n = m + 1 := by
          cases n with
          | zero => simp at hlen
          | succ k => exact ⟨k, rfl⟩
        rw [hm] at hy
        rw [groupPairsGo] at hy
        obtain ⟨cq, fq⟩ := q
        simp only [List.head?_cons, Option.mem_some_iff] at hy
        rw [← hy, bold_mkEqualRun, bold_mkEqualRun]
        exact fun hcontra => hqne hcontra.symm

theorem buildCharFormatMap_cons (r : Run) (rs : List Run) :
    buildCharFormatMap (r :: rs) =
      List.replicate r.text.length (runFmt r) ++ buildCharFormatMap rs := by
  simp [buildCharFormatMap]

theorem buildCharFormatMap_length (rs : List Run) :
    (buildCharFormatMap rs).length = (paraText rs).length := by
  induction rs with
  | nil => rfl
  | cons r rest ih =>
    rw [buildCharFormatMap_cons, paraText_cons]
    simp [ih]

/-- **C7 (amended).** Diffing any non-empty text against itself yields a
single Equal span covering the whole text; rendering that script with the
deprecated `apply_formatted_diffs` rebuilds the paragraph with the same plain
text, reproduces the per-character `bold` of the format map exactly, and
splits runs precisely at `bold` changes (adjacent output runs differ in
`bold`). -/
theorem c7_round_trip (t : List Char) (rs : List Run) (ht : t ≠ [])
    (hpt : paraText rs = t) :
    wordLevelDiffsFull t t = [(Op.equal, t)] ∧
    flattenBold (applyFormattedDiffsDep rs [(Op.equal, t)]) =
      t.zip ((buildCharFormatMap rs).map Fmt.bold) ∧
    List.Chain' (fun x y => x.bold ≠ y.bold)
      (applyFormattedDiffsDep rs [(Op.equal, t)]) ∧
    paraText (applyFormattedDiffsDep rs [(Op.equal, t)]) = t := by
  have hrs : rs ≠ [] := by
    intro hnil
    rw [hnil] at hpt
    exact ht hpt.symm
  have hlen : (buildCharFormatMap rs).length = t.length := by
    rw [buildCharFormatMap_length, hpt]
  have hrender : applyFormattedDiffsDep rs [(Op.equal, t)] =
      equalSpanRuns (buildCharFormatMap rs)
        ((buildCharFormatMap rs).headD emptyFmt) 0 t := by
    rw [applyFormattedDiffsDep, if_neg hrs, renderDepGo, if_neg ht]
    simp [renderDepGo]
  refine ⟨wordLevelDiffsFull_self t ht, ?_, ?_, ?_⟩
  · have hmain := renderDepGo_bold_inv (buildCharFormatMap rs)
        ((buildCharFormatMap rs).headD emptyFmt) t (by rw [hlen])
        [(Op.equal, t)] 0 (by simp [selJoin_cons, keepsOrig, selJoin_nil])
        ⟨(fun hc => nomatch hc), trivial⟩
    rw [List.drop_zero, List.drop_zero] at hmain
    have hstrip : stripInserts (renderDepGo (buildCharFormatMap rs)
        ((buildCharFormatMap rs).headD emptyFmt) 0 [(Op.equal, t)]) =
        renderDepGo (buildCharFormatMap rs)
          ((buildCharFormatMap rs).headD emptyFmt) 0 [(Op.equal, t)] := by
      rw [renderDepGo, if_neg ht]
      show stripInserts (equalSpanRuns _ _ _ _ ++ renderDepGo _ _ _ []) = _
      rw [stripInserts_append, stripInserts_equalSpanRuns]
      rfl
    rw [hstrip] at hmain
    rw [applyFormattedDiffsDep, if_neg hrs, hmain]
  · rw [hrender, equalSpanRuns, groupPairs]
    exact chain_groupPairsGo _ _ le_rfl
  · rw [hrender, paraText_equalSpanRuns]

/-- Witness for the amended C7 on bold `"a"` + plain `"b"`. -/
theorem c7_round_trip_witness :
    wordLevelDiffsFull "ab".toList "ab".toList = [(Op.equal, "ab".toList)] ∧
    flattenBold (applyFormattedDiffsDep
        [{ text := "a".toList, bold := some true }, { text := "b".toList }]
        [(Op.equal, "ab".toList)]) =
      "ab".toList.zip ((buildCharFormatMap
        [{ text := "a".toList, bold := some true }, { text := "b".toList }]).map Fmt.bold) ∧
    List.Chain' (fun x y => x.bold ≠ y.bold)
      (applyFormattedDiffsDep
        [{ text := "a".toList, bold := some true }, { text := "b".toList }]
        [(Op.equal, "ab".toList)]) ∧
    paraText (applyFormattedDiffsDep
        [{ text := "a".toList, bold := some true }, { text := "b".toList }]
        [(Op.equal, "ab".toList)]) = "ab".toList :=
  c7_round_trip "ab".toList _ (by decide) (by decide)

/-- **C7 counterexample.** Rendering the self-diff script does not leave the
runs format-for-format identical: with runs `"a"` (no attributes) and `"b"`
(italic), both non-bold, the deprecated renderer merges them into one run and
drops the italic, so the rebuilt run list differs from the original. -/
theorem c7_counterexample :
    wordLevelDiffsFull "ab".toList "ab".toList = [(Op.equal, "ab".toList)] ∧
    applyFormattedDiffsDep
        [{ text := "a".toList }, { text := "b".toList, italic := some true }]
        [(Op.equal, "ab".toList)] ≠
      [{ text := "a".toList }, { text := "b".toList, italic := some true }] := by
  decide

/-! ## Claim C8 — the rebuild is remove-then-append, not all-or-nothing

`apply_formatted_diffs` first removes every existing run from the live
paragraph (`run._element.getparent().remove(...)`, in document order) and then
appends the new runs one at a time (`para.add_run`).  `paraStates` lists the
paragraph's run list after each of these primitive mutations, starting with
the original state. -/

def paraStates (runs : List Run) (diffs : List Diff) : List (List Run) :=
  (List.range (runs.length + 1)).map (fun k => runs.drop k) ++
    (List.range' 1 (applyFormattedDiffs runs diffs).length).map
      (fun k => (applyFormattedDiffs runs diffs).take k)

/-- **C8 (amended).** The rebuild is remove-then-append on the live
paragraph: the mutation sequence starts at the original run list, passes
through the fully cleared paragraph (all old runs are removed before any new
run exists), and ends at the rebuilt run list.  It is not all-or-nothing: the
intermediate states are visible to a failure in mid-processing. -/
theorem c8_remove_then_append (runs : List Run) (diffs : List Diff)
    (h : runs ≠ []) :
    (paraStates runs diffs).head? = some runs ∧
    [] ∈ paraStates runs diffs ∧
    (paraStates runs diffs).getLast? = some (applyFormattedDiffs runs diffs) := by
  refine ⟨?_, ?_, ?_⟩
  · rw [paraStates]
    have hr : List.range (runs.length + 1) = 0 :: (List.range runs.length).map Nat.succ :=
      List.range_succ_eq_map runs.length
    rw [hr]
    rfl
  · rw [paraStates]
    refine List.mem_append.mpr (Or.inl ?_)
    refine List.mem_map.mpr ⟨runs.length, ?_, List.drop_length runs⟩
    exact List.mem_range.mpr (by omega)
  · rw [paraStates]
    cases hlen : (applyFormattedDiffs runs diffs).length with
    | zero =>
      have hempty : applyFormattedDiffs runs diffs = [] := List.length_eq_zero.mp hlen
      rw [List.range'_zero, List.map_nil, List.append_nil, List.range_succ,
        List.map_append, List.map_singleton, List.getLast?_concat]
      rw [List.drop_length, hempty]
    | succ m =>
      have hr : List.range' 1 (m + 1) = List.range' 1 m ++ [1 + m] := by
        have h2 := @List.range'_concat 1 1 m
        simpa using h2
      rw [hr, List.map_append, List.map_singleton, ← List.append_assoc,
        List.getLast?_concat]
      have : 1 + m = (applyFormattedDiffs runs diffs).length := by omega
      rw [this, List.take_length]

/-- Witness for the amended C8 at a two-run paragraph and a one-span script. -/
theorem c8_remove_then_append_witness :
    (paraStates [{ text := "ab".toList, bold := some true }, { text := "cd".toList }]
        [(Op.equal, "abcd".toList)]).head? =
      some [{ text := "ab".toList, bold := some true }, { text := "cd".toList }] ∧
    [] ∈ paraStates [{ text := "ab".toList, bold := some true }, { text := "cd".toList }]
        [(Op.equal, "abcd".toList)] ∧
    (paraStates [{ text := "ab".toList, bold := some true }, { text := "cd".toList }]
        [(Op.equal, "abcd".toList)]).getLast? =
      some (applyFormattedDiffs
        [{ text := "ab".toList, bold := some true }, { text := "cd".toList }]
        [(Op.equal, "abcd".toList)]) :=
  c8_remove_then_append _ _ (by decide)

/-- **C8 counterexample.** The old runs are removed before the new run list
exists on the paragraph: on a two-run paragraph the mutation sequence of
`apply_formatted_diffs` contains the fully cleared state, which is neither the
original run list nor the final one — a mid-processing failure would leave the
paragraph in it. -/
theorem c8_counterexample :
    [] ∈ paraStates [{ text := "ab".toList, bold := some true }, { text := "cd".toList }]
        [(Op.equal, "abcd".toList)] ∧
    ([] : List Run) ≠
      [{ text := "ab".toList, bold := some true }, { text := "cd".toList }] ∧
    ([] : List Run) ≠ applyFormattedDiffs
        [{ text := "ab".toList, bold := some true }, { text := "cd".toList }]
        [(Op.equal, "abcd".toList)] := by
  decide

/-! ## Claim C9 — boundary scope of `process_document`

`process_document` scans the paragraphs in order; the paragraph containing
the boundary marker is excluded and everything after it is collected as menu
content; if the marker is absent a warning is printed and the whole document
is processed.  The prix-fixe keyword scan and the course-header patterns are
regex/keyword heuristics over the candidate texts; they enter the model as the
predicates `isPF` and `isHeader`, so the boundary properties below hold for
every choice of them. -/

/-- A paragraph of a document. -/
abbrev Para := List Run

/-- Python `marker in text` (substring test). -/
def containsSub (needle hay : List Char) : Bool :=
  hay.tails.any fun suf => needle.isPrefixOf suf

/-- The marker scan of `process_document`: the prefix of the document up to
and including the first marker paragraph, and the remaining paragraphs. -/
def splitOnMarker (marker : List Char) : List Para → Option (List Para × List Para)
  | [] => none
  | p :: rest =>
    if containsSub marker (paraText p) then some ([p], rest)
    else (splitOnMarker marker rest).map fun pr => (p :: pr.1, pr.2)

/-- The course-number paragraph inserted before a detected course header: a
single bold, yellow-highlighted run holding the number. -/
def numberPara (n : Nat) : Para :=
  [{ text := (toString n).toList, bold := some true, highlight := some YELLOW }]

/-- Course numbering combined with the correction loop over the menu
paragraphs: a number paragraph is inserted before each paragraph whose text
matches a course-header pattern (numbers counted in document order), and every
menu paragraph is processed by `process_paragraph`.  The inserted number
paragraphs are not among the collected paragraphs, so they are not processed. -/
def addNumbersAndProcess (correct : List Char → List Char)
    (isHeader : List Char → Bool) : Nat → List Para → List Para
  | _, [] => []
  | n, p :: rest =>
    if isHeader (paraText p) then
      numberPara (n + 1) :: (processParagraph correct p).1 ::
        addNumbersAndProcess correct isHeader (n + 1) rest
    else
      (processParagraph correct p).1 :: addNumbersAndProcess correct isHeader n rest

/-- The processing applied to the menu-content region: course numbering when
the prix-fixe heuristic fires, then per-paragraph correction. -/
def processRegion (correct : List Char → List Char) (isPF : List Para → Bool)
    (isHeader : List Char → Bool) (cands : List Para) : List Para :=
  if isPF cands then addNumbersAndProcess correct isHeader 0 cands
  else cands.map fun p => (processParagraph correct p).1

structure DocResult where
  doc : List Para
  warning : Bool
  candidates : List Para
deriving DecidableEq, Repr

/-- `MenuRedliner.process_document` (active file, 372–427): the document after
processing, whether the missing-marker warning was printed, and the paragraphs
that were collected for processing. -/
def processDocument (marker : List Char) (correct : List Char → List Char)
    (isPF : List Para → Bool) (isHeader : List Char → Bool)
    (paras : List Para) : DocResult :=
  match splitOnMarker marker paras with
  | some pr => ⟨pr.1 ++ processRegion correct isPF isHeader pr.2, false, pr.2⟩
  | none => ⟨processRegion correct isPF isHeader paras, true, paras⟩

theorem splitOnMarker_spec (marker : List Char) :
    ∀ (paras : List Para) (i : Nat) (p : Para),
      paras.get? i = some p →
      containsSub marker (paraText p) = true →
      (∀ (j : Nat) (q : Para), j < i → paras.get? j = some q →
        containsSub marker (paraText q) = false) →
      splitOnMarker marker paras = some (paras.take (i + 1), paras.drop (i + 1)) := by
  intro paras
  induction paras with
  | nil => intro i p hp; simp at hp
  | cons q rest ih =>
    intro i p hp hmark hbefore
    cases i with
    | zero =>
      simp only [List.get?_cons_zero, Option.some.injEq] at hp
      rw [splitOnMarker, if_pos (hp ▸ hmark)]
      rfl
    | succ k =>
      have hq : containsSub marker (paraText q) = false :=
        hbefore 0 q (Nat.succ_pos k) rfl
      rw [splitOnMarker, if_neg (by simp [hq])]
      rw [ih k p hp hmark
        (fun j r hj hr => hbefore (j + 1) r (Nat.succ_lt_succ hj) hr)]
      rfl

theorem splitOnMarker_none (marker : List Char) :
    ∀ (paras : List Para),
      (∀ p ∈ paras, containsSub marker (paraText p) = false) →
      splitOnMarker marker paras = none := by
  intro paras
  induction paras with
  | nil => intro _; rfl
  | cons q rest ih =>
    intro hall
    rw [splitOnMarker, if_neg (by simp [hall q (List.mem_cons_self q rest)])]
    rw [ih fun p hp => hall p (List.mem_cons_of_mem q hp)]
    rfl

/-- **C9.** If some paragraph contains the boundary marker then, with `i` the
first such index, `process_document` leaves the paragraphs up to and
including position `i` exactly as they were (whatever their text), collects
exactly the paragraphs strictly after position `i` for processing, and prints
no warning; if no paragraph contains the marker, every paragraph is collected
and the warning is printed.  This holds for every correction function and
every prix-fixe/course-header heuristic. -/
theorem c9_boundary_scope (marker : List Char) (correct : List Char → List Char)
    (isPF : List Para → Bool) (isHeader : List Char → Bool) (paras : List Para) :
    (∀ (i : Nat) (p : Para), paras.get? i = some p →
      containsSub marker (paraText p) = true →
      (∀ (j : Nat) (q : Para), j < i → paras.get? j = some q →
        containsSub marker (paraText q) = false) →
      (processDocument marker correct isPF isHeader paras).doc.take (i + 1) =
        paras.take (i + 1) ∧
      (processDocument marker correct isPF isHeader paras).candidates =
        paras.drop (i + 1) ∧
      (processDocument marker correct isPF isHeader paras).warning = false) ∧
    ((∀ p ∈ paras, containsSub marker (paraText p) = false) →
      (processDocument marker correct isPF isHeader paras).candidates = paras ∧
      (processDocument marker correct isPF isHeader paras).warning = true) := by
  constructor
  · intro i p hp hmark hbefore
    have hsplit := splitOnMarker_spec marker paras i p hp hmark hbefore
    have hlen : (paras.take (i + 1)).length = i + 1 := by
      have : i < paras.length := by
        by_contra hc
        rw [List.get?_eq_none.mpr (by omega)] at hp
        exact Option.noConfusion hp
      simp [List.length_take]
      omega
    rw [processDocument, hsplit]
    exact ⟨by simpa using List.take_left' hlen, rfl, rfl⟩
  · intro hall
    rw [processDocument, splitOnMarker_none marker paras hall]
    exact ⟨rfl, rfl⟩

/-- Witness for C9: a three-paragraph document whose middle paragraph holds
the marker — the prefix is untouched and only the last paragraph is collected;
and a document without the marker — all paragraphs collected, warning on. -/
theorem c9_boundary_scope_witness :
    (processDocument "M".toList (fun t => t ++ ['!']) (fun _ => false) (fun _ => false)
        [[{ text := "x".toList }], [{ text := "zMz".toList }],
         [{ text := "y".toList }]]).doc.take 2 =
      [[{ text := "x".toList }], [{ text := "zMz".toList }]] ∧
    (processDocument "M".toList (fun t => t ++ ['!']) (fun _ => false) (fun _ => false)
        [[{ text := "x".toList }], [{ text := "zMz".toList }],
         [{ text := "y".toList }]]).candidates = [[{ text := "y".toList }]] ∧
    (processDocument "M".toList (fun t => t ++ ['!']) (fun _ => false) (fun _ => false)
        [[{ text := "x".toList }], [{ text := "zMz".toList }],
         [{ text := "y".toList }]]).warning = false := by
  have h := (c9_boundary_scope "M".toList (fun t => t ++ ['!'])
      (fun _ => false) (fun _ => false)
      [[{ text := "x".toList }], [{ text := "zMz".toList }],
       [{ text := "y".toList }]]).1 1 [{ text := "zMz".toList }]
      (by decide) (by decide)
      (by
        intro j q hj hq
        have hj0 : j = 0 := by omega
        subst hj0
        simp only [List.get?_cons_zero, Option.some.injEq] at hq
        subst hq
        decide)
  exact h
